import Mathlib

/-!
Verification of `cdk_changeset_reporter` (package `cdk_changeset_reporter/cdk_changeset_reporter.py`,
plus the earlier flat module `cdk_changeset_reporter.py`).

The development shallowly embeds the program's data model and operations:

* Python strings are `List Char` (`PyStr`); Python slicing and `str.replace`
  are embedded explicitly with Python's semantics.
* `CdkChangesetReporter.truncate`, `add_stacks`, `gather_changes` and
  `generate_table` are embedded from the source.  External collaborators
  (the cloud-assembly reader, the CloudFormation API, the markdown table
  renderer) are modelled as explicit inputs: an assembly is a list of stack
  artifacts, the API is a record of fallible functions, and `generate_table`
  is embedded up to the list of table rows handed to the external table
  library together with the recreation flag interpolated into the summary
  line.
* The reporter's `set` of selected stacks is a `Finset StackInfo`
  (`StackInfo` is a `NamedTuple`, compared componentwise).
* Python exceptions are `Except`: `gather_changes` performs its API calls
  in sequence with no exception handler, so an error propagates.
-/

/-- Python strings, modelled as their sequence of characters. -/
abbrev PyStr := List Char

/-- Python slice `text[:k]` for an `int` index `k` (negative indices count
from the end, clamped at the ends as Python does). -/
def pySliceTo (text : PyStr) (k : Int) : PyStr :=
  if k < 0 then text.take (text.length - min text.length k.natAbs)
  else text.take k.toNat

/-- Python slice `text[k:]` for an `int` index `k` (negative indices count
from the end, clamped at the ends as Python does). -/
def pySliceFrom (text : PyStr) (k : Int) : PyStr :=
  if k < 0 then text.drop (text.length - min text.length k.natAbs)
  else text.drop k.toNat

/-- The five-character ellipsis marker `"(...)"` inserted by `truncate`. -/
def ellipsisMarker : PyStr := "(...)".toList

/-- Embeds `CdkChangesetReporter.truncate` (cdk_changeset_reporter.py lines
146-153).  Python's `int(max_length / 2 - 2.5)` is exact float arithmetic
truncated toward zero, i.e. `Int.tdiv (max_length - 5) 2`.  When
`len(text) <= max_length` the Python function falls off the end of the `if`
and implicitly returns `None`, embedded as `none`. -/
def truncate (max_length : Nat) (text : PyStr) : Option PyStr :=
  let cut : Int := Int.tdiv ((max_length : Int) - 5) 2
  if text.length > max_length then
    some (pySliceTo text cut ++ ellipsisMarker ++ pySliceFrom text (-cut))
  else
    none

/-- A concrete 51-character logical resource id used as a test vector. -/
def longId51 : PyStr := "ABCDEFGHIJKLMNOPQRSTUVWXYZabcdefghijklmnopqrstuvwxy".toList

/-- C1: the claim says `truncate` with `max_length` 50 returns a string of
length at most 50 unchanged.  The code instead falls through the `if` and
returns Python `None` (`none` here): the `return` statement only exists in
the long-string branch, so truncation is not a no-op for short ids — they
are replaced by `None`. -/
theorem truncate_short_returns_none (text : PyStr) (h : text.length ≤ 50) :
    truncate 50 text = none := by
  have h' : ¬ text.length > 50 := by omega
  simp [truncate, h']

/-- Witness for `truncate_short_returns_none` at the concrete id `"Role1"`. -/
theorem truncate_short_returns_none_witness :
    ("Role1".toList.length ≤ 50) ∧ truncate 50 "Role1".toList = none :=
  ⟨by decide, truncate_short_returns_none "Role1".toList (by decide)⟩

/-- C4 (amended): for a string longer than 50 characters, `truncate` with
`max_length` 50 keeps the first 22 and the last 22 characters (Python's
`int(50 / 2 - 2.5) = 22`, not 23 or 24) around the 5-character `"(...)"`
marker; the output length is exactly 49, which is at most 50 and smaller
than the input's length. -/
theorem truncate_long_keeps_22 (text : PyStr) (h : text.length > 50) :
    truncate 50 text =
      some (text.take 22 ++ ellipsisMarker ++ text.drop (text.length - 22)) ∧
    (text.take 22 ++ ellipsisMarker ++ text.drop (text.length - 22)).length = 49 ∧
    49 ≤ 50 ∧ 49 < text.length := by
  have hcut : Int.tdiv 45 2 = 22 := by decide
  have h22 : min text.length 22 = 22 := Nat.min_eq_right (by omega)
  constructor
  · simp only [truncate, if_pos h, pySliceTo, pySliceFrom]
    norm_num [hcut, h22]
    have h22' : Int.toNat 22 = 22 := by decide
    rw [h22']
  · constructor
    · simp only [List.length_append, List.length_take, List.length_drop,
        ellipsisMarker]
      have : ("(...)".toList).length = 5 := by decide
      omega
    · omega

/-- Witness for `truncate_long_keeps_22` at the concrete 51-character id. -/
theorem truncate_long_keeps_22_witness :
    longId51.length > 50 ∧
    truncate 50 longId51 =
      some (longId51.take 22 ++ ellipsisMarker ++ longId51.drop (longId51.length - 22)) :=
  ⟨by decide, (truncate_long_keeps_22 longId51 (by decide)).1⟩

/-- C4 counterexample: on a concrete 51-character input, `truncate` does not
keep 23 or 24 characters on each side as the claim states ("approximately
23–24"); it keeps 22 (see `truncate_long_keeps_22`). -/
theorem truncate_long_not_23_or_24 :
    longId51.length = 51 ∧
    truncate 50 longId51 ≠
      some (longId51.take 23 ++ ellipsisMarker ++ longId51.drop (longId51.length - 23)) ∧
    truncate 50 longId51 ≠
      some (longId51.take 24 ++ ellipsisMarker ++ longId51.drop (longId51.length - 24)) := by
  decide

/-- Lexicographic comparison of Python strings by character code points: the
order Python's `<` on `str` uses, as a boolean "less or equal". -/
def pyStrLe : PyStr → PyStr → Bool
  | [], _ => true
  | _ :: _, [] => false
  | a :: xs, b :: ys => if a = b then pyStrLe xs ys else decide (a < b)

/-- The lexicographic order is reflexive. -/
theorem pyStrLe_refl (s : PyStr) : pyStrLe s s = true := by
  induction s with
  | nil => rfl
  | cons a xs ih => simp [pyStrLe, ih]

/-- The lexicographic order is total. -/
theorem pyStrLe_total (s t : PyStr) : pyStrLe s t = true ∨ pyStrLe t s = true := by
  induction s generalizing t with
  | nil => exact Or.inl rfl
  | cons a xs ih =>
    cases t with
    | nil => exact Or.inr rfl
    | cons b ys =>
      by_cases hab : a = b
      · subst hab
        rcases ih ys with h | h
        · exact Or.inl (by simp [pyStrLe, h])
        · exact Or.inr (by simp [pyStrLe, h])
      · rcases lt_or_gt_of_ne hab with h | h
        · exact Or.inl (by simp [pyStrLe, hab, h])
        · exact Or.inr (by simp [pyStrLe, Ne.symm hab, h])

/-- The lexicographic order is transitive. -/
theorem pyStrLe_trans (s t u : PyStr) (h1 : pyStrLe s t = true)
    (h2 : pyStrLe t u = true) : pyStrLe s u = true := by
  induction s generalizing t u with
  | nil => rfl
  | cons a xs ih =>
    cases t with
    | nil => simp [pyStrLe] at h1
    | cons b ys =>
      cases u with
      | nil => simp [pyStrLe] at h2
      | cons c zs =>
        by_cases hab : a = b <;> by_cases hbc : b = c
        · subst hab; subst hbc
          simp only [pyStrLe, if_pos rfl] at h1 h2 ⊢
          exact ih ys zs h1 h2
        · subst hab
          simp only [pyStrLe, if_pos rfl, if_neg hbc] at h2 ⊢
          simp [h2]
        · subst hbc
          simp only [pyStrLe, if_neg hab] at h1 ⊢
          simp [h1]
        · simp only [pyStrLe, if_neg hab, if_neg hbc] at h1 h2
          have hac : a < c := lt_trans (of_decide_eq_true h1) (of_decide_eq_true h2)
          simp [pyStrLe, ne_of_lt hac, hac]

/-- One step of a stable insertion sort: insert `x` after every element `y`
with `le y x` and before the first strictly greater element, so an element
inserted later never jumps ahead of an equal one. -/
def pyInsert {α : Type} (le : α → α → Bool) (x : α) : List α → List α
  | [] => [x]
  | y :: ys => if le y x then y :: pyInsert le x ys else x :: y :: ys

/-- Embeds Python's stable `list.sort(key=...)`: extensionally, Python's sort
is the unique stable sort by the comparison, realised here as a left fold of
stable insertions. -/
def pySortBy {α : Type} (le : α → α → Bool) (l : List α) : List α :=
  l.foldl (fun acc x => pyInsert le x acc) []

/-- Membership is preserved by a stable insertion step. -/
theorem mem_pyInsert {α : Type} (le : α → α → Bool) (x a : α) (l : List α) :
    a ∈ pyInsert le x l ↔ a = x ∨ a ∈ l := by
  induction l with
  | nil => simp [pyInsert]
  | cons y ys ih =>
    by_cases h : le y x = true
    · simp [pyInsert, h, ih]
      tauto
    · simp [pyInsert, h]

/-- A stable insertion step preserves sortedness. -/
theorem pyInsert_pairwise {α : Type} (le : α → α → Bool)
    (htotal : ∀ a b, le a b = true ∨ le b a = true)
    (htrans : ∀ a b c, le a b = true → le b c = true → le a c = true)
    (x : α) (l : List α) (h : l.Pairwise fun a b => le a b = true) :
    (pyInsert le x l).Pairwise fun a b => le a b = true := by
  induction l with
  | nil => simp [pyInsert]
  | cons y ys ih =>
    rcases List.pairwise_cons.mp h with ⟨hy, hys⟩
    by_cases hle : le y x = true
    · rw [pyInsert, if_pos hle]
      refine List.pairwise_cons.mpr ⟨?_, ih hys⟩
      intro z hz
      rcases (mem_pyInsert le x z ys).mp hz with rfl | hz'
      · exact hle
      · exact hy z hz'
    · rw [pyInsert, if_neg hle]
      have hxy : le x y = true := by
        rcases htotal y x with h' | h'
        · exact absurd h' hle
        · exact h'
      refine List.pairwise_cons.mpr ⟨?_, h⟩
      intro z hz
      rcases List.mem_cons.mp hz with rfl | hz'
      · exact hxy
      · exact htrans x y z hxy (hy z hz')

/-- Inserting an element not selected by `p` does not change the `p`-filter. -/
theorem filter_pyInsert_of_neg {α : Type} (le : α → α → Bool) (p : α → Bool)
    (x : α) (l : List α) (hx : p x = false) :
    (pyInsert le x l).filter p = l.filter p := by
  induction l with
  | nil => simp [pyInsert, hx]
  | cons y ys ih =>
    by_cases h : le y x = true
    · rw [pyInsert, if_pos h]
      simp [List.filter_cons, ih]
    · rw [pyInsert, if_neg h]
      simp [List.filter_cons, hx]

/-- Inserting an element selected by `p` into a sorted list appends it after
every selected element already present: the stability of one insertion. -/
theorem filter_pyInsert_of_pos {α : Type} (le : α → α → Bool) (p : α → Bool)
    (htrans : ∀ a b c, le a b = true → le b c = true → le a c = true)
    (x : α) (l : List α) (hx : p x = true)
    (hcompat : ∀ y, p y = true → le y x = true)
    (hsorted : l.Pairwise fun a b => le a b = true) :
    (pyInsert le x l).filter p = l.filter p ++ [x] := by
  induction l with
  | nil => simp [pyInsert, hx]
  | cons y ys ih =>
    rcases List.pairwise_cons.mp hsorted with ⟨hy, hys⟩
    by_cases h : le y x = true
    · rw [pyInsert, if_pos h]
      simp only [List.filter_cons, ih hys]
      by_cases hpy : p y = true <;> simp [hpy]
    · rw [pyInsert, if_neg h]
      have hnone : (y :: ys).filter p = [] := by
        rw [List.filter_eq_nil_iff]
        intro z hz
        intro hpz
        rcases List.mem_cons.mp hz with rfl | hz'
        · exact h (hcompat z hpz)
        · exact h (htrans y z x (hy z hz') (hcompat z hpz))
      rw [List.filter_cons, if_pos hx, hnone]
      simp [List.filter_cons] at hnone
      simp [List.filter_cons, hnone]

/-- Folded insertions preserve membership: an element is in the accumulated
sorted list iff it is in the accumulator or among the remaining elements. -/
theorem mem_foldl_pyInsert {α : Type} (le : α → α → Bool) (a : α) :
    ∀ (l acc : List α),
      (a ∈ l.foldl (fun acc x => pyInsert le x acc) acc ↔ a ∈ acc ∨ a ∈ l) := by
  intro l
  induction l with
  | nil => simp
  | cons x xs ih =>
    intro acc
    rw [List.foldl_cons, ih, mem_pyInsert]
    simp only [List.mem_cons]
    tauto

/-- Folded insertions preserve sortedness of the accumulator. -/
theorem pairwise_foldl_pyInsert {α : Type} (le : α → α → Bool)
    (htotal : ∀ a b, le a b = true ∨ le b a = true)
    (htrans : ∀ a b c, le a b = true → le b c = true → le a c = true) :
    ∀ (l acc : List α), acc.Pairwise (fun a b => le a b = true) →
      (l.foldl (fun acc x => pyInsert le x acc) acc).Pairwise
        (fun a b => le a b = true) := by
  intro l
  induction l with
  | nil => intro acc h; simpa using h
  | cons x xs ih =>
    intro acc h
    rw [List.foldl_cons]
    exact ih _ (pyInsert_pairwise le htotal htrans x acc h)

/-- Folded insertions are stable: the elements selected by a predicate `p`
that is constant across the comparison (`p`-elements compare `le` both ways)
come out in their arrival order, appended after the selected accumulator
elements. -/
theorem filter_foldl_pyInsert {α : Type} (le : α → α → Bool) (p : α → Bool)
    (htotal : ∀ a b, le a b = true ∨ le b a = true)
    (htrans : ∀ a b c, le a b = true → le b c = true → le a c = true)
    (hcompat : ∀ a b, p a = true → p b = true → le a b = true) :
    ∀ (l acc : List α), acc.Pairwise (fun a b => le a b = true) →
      (l.foldl (fun acc x => pyInsert le x acc) acc).filter p =
        acc.filter p ++ l.filter p := by
  intro l
  induction l with
  | nil => intro acc _; simp
  | cons x xs ih =>
    intro acc hacc
    rw [List.foldl_cons, ih _ (pyInsert_pairwise le htotal htrans x acc hacc)]
    by_cases hx : p x = true
    · rw [filter_pyInsert_of_pos le p htrans x acc hx
        (fun y hy => hcompat y x hy hx) hacc]
      simp [List.filter_cons, hx]
    · rw [filter_pyInsert_of_neg le p x acc (Bool.eq_false_iff.mpr hx)]
      simp [List.filter_cons, hx]

/-- Membership in the stable sort. -/
theorem mem_pySortBy {α : Type} (le : α → α → Bool) (a : α) (l : List α) :
    a ∈ pySortBy le l ↔ a ∈ l := by
  rw [pySortBy, mem_foldl_pyInsert]
  simp

/-- The stable sort sorts. -/
theorem pairwise_pySortBy {α : Type} (le : α → α → Bool)
    (htotal : ∀ a b, le a b = true ∨ le b a = true)
    (htrans : ∀ a b c, le a b = true → le b c = true → le a c = true)
    (l : List α) :
    (pySortBy le l).Pairwise (fun a b => le a b = true) :=
  pairwise_foldl_pyInsert le htotal htrans l [] (by simp)

/-- The stable sort is stable: filtering by a class of mutually `le`-equal
elements returns them in their original order. -/
theorem filter_pySortBy {α : Type} (le : α → α → Bool) (p : α → Bool)
    (htotal : ∀ a b, le a b = true ∨ le b a = true)
    (htrans : ∀ a b c, le a b = true → le b c = true → le a c = true)
    (hcompat : ∀ a b, p a = true → p b = true → le a b = true) (l : List α) :
    (pySortBy le l).filter p = l.filter p := by
  rw [pySortBy, filter_foldl_pyInsert le p htotal htrans hcompat l [] (by simp)]
  simp

/-- The `Target` dictionary of a change detail: `Name` is optional (the code
reads it with `.get("Name", "")`), `RequiresRecreation` is one of `"No"`,
`"Conditionally"`, `"Always"`. -/
structure ChangeTarget where
  Name : Option PyStr
  RequiresRecreation : PyStr
deriving DecidableEq

/-- One entry of a change's `Details` list. -/
structure ChangeDetail where
  Target : ChangeTarget
  ChangeSource : PyStr
deriving DecidableEq

/-- The `ResourceChange` dictionary of one change record, the fields
`generate_table` reads. -/
structure ResourceChangeData where
  Action : PyStr
  ResourceType : PyStr
  LogicalResourceId : PyStr
  Details : List ChangeDetail
deriving DecidableEq

/-- One change record as returned by `describe_change_set`. -/
structure Change where
  ResourceChange : ResourceChangeData
deriving DecidableEq

/-- One row of the table built by `generate_table`.  All cells are strings
except the logical resource id, which is the result of `truncate` and hence
may be Python `None` (`none`). -/
structure Row where
  action : PyStr
  requires_recreation : PyStr
  resource_type : PyStr
  logical_resource_id : Option PyStr
  change_target : PyStr
  change_reason : PyStr
deriving DecidableEq

/-- The recreation requirement extracted by the `generate_table` loop:
`details[0]["Target"]["RequiresRecreation"]` when the `Details` list is
non-empty, the default `"No"` otherwise (lines 170-177). -/
def requires_recreate_value (change : Change) : PyStr :=
  match change.ResourceChange.Details with
  | [] => "No".toList
  | d :: _ => d.Target.RequiresRecreation

/-- Whether one change sets the stack-level `recreate` flag: its recreation
requirement is `"Always"` or `"Conditionally"` (line 179). -/
def change_requires_recreate (change : Change) : Bool :=
  requires_recreate_value change == "Always".toList ||
  requires_recreate_value change == "Conditionally".toList

/-- The warning glyph wrapped around a flagged recreation requirement. -/
def siren : Char := '🚨'

/-- One iteration of the `generate_table` loop (lines 161-195): extract the
details, truncate the logical id, default the target/reason/recreation
fields when `Details` is empty, and wrap the recreation requirement in
warning glyphs when it is `"Always"` or `"Conditionally"`. -/
def row_of_change (change : Change) : Row :=
  let resource_id := truncate 50 change.ResourceChange.LogicalResourceId
  let change_target : PyStr :=
    match change.ResourceChange.Details with
    | [] => []
    | d :: _ => d.Target.Name.getD []
  let change_reason : PyStr :=
    match change.ResourceChange.Details with
    | [] => []
    | d :: _ => d.ChangeSource
  let requires_recreate : PyStr :=
    if change_requires_recreate change then
      siren :: requires_recreate_value change ++ [siren]
    else
      requires_recreate_value change
  { action := change.ResourceChange.Action
    requires_recreation := requires_recreate
    resource_type := change.ResourceChange.ResourceType
    logical_resource_id := resource_id
    change_target := change_target
    change_reason := change_reason }

/-- The fixed header row inserted at index 0 (lines 200-210). -/
def header_row : Row :=
  { action := "Action".toList
    requires_recreation := "Requires Recreation".toList
    resource_type := "Resource Type".toList
    logical_resource_id := some "Logical Resource Id".toList
    change_target := "Change Target".toList
    change_reason := "Change Reason".toList }

/-- The observable output of `generate_table`: the rows handed to the
external table renderer (header first, body sorted by action), and the
`recreate` flag that decides whether the summary line carries the
recreation warning. -/
structure RenderedReport where
  rows : List Row
  recreate : Bool
deriving DecidableEq

/-- Embeds `CdkChangesetReporter.generate_table` (lines 155-223) up to the
external `GithubFlavoredMarkdownTable` renderer and the literal markdown
wrapper: the loop builds one row per change and ors the per-change
recreation flags, the row list is sorted in place by the action cell
(`changes.sort(key=lambda x: x[0])`, Python's stable sort), and the header
row is inserted at index 0.  The returned `recreate` flag is exactly the
condition under which the summary line includes the recreation warning. -/
def generate_table (reported_changes : List Change) : RenderedReport :=
  let changes := reported_changes.map row_of_change
  let recreate := reported_changes.any change_requires_recreate
  let sorted := pySortBy (fun r1 r2 => pyStrLe r1.action r2.action) changes
  { rows := header_row :: sorted, recreate := recreate }

/-- Concrete change list with actions Remove, Add, Modify, Add (in that
order), distinguished by resource type, for the stability test vector. -/
def sortDemo : List Change :=
  [ ⟨⟨"Remove".toList, "TypeR".toList, "r1".toList, []⟩⟩,
    ⟨⟨"Add".toList, "TypeA1".toList, "a1".toList, []⟩⟩,
    ⟨⟨"Modify".toList, "TypeM".toList, "m1".toList, []⟩⟩,
    ⟨⟨"Add".toList, "TypeA2".toList, "a2".toList, []⟩⟩ ]

/-- C7: `generate_table` always puts the fixed header row first; the body is
sorted by the action cell in ascending lexicographic order; the sort is
stable (for every action value, the rows carrying it keep their original
relative order); and on the concrete action list
`["Remove", "Add", "Modify", "Add"]` the output order is
`["Add", "Add", "Modify", "Remove"]` with the two Add rows in arrival
order. -/
theorem generate_table_sorted_and_header (cs : List Change) :
    (generate_table cs).rows.head? = some header_row ∧
    ((generate_table cs).rows.tail.Pairwise
      fun r1 r2 => pyStrLe r1.action r2.action = true) ∧
    (∀ a : PyStr, (generate_table cs).rows.tail.filter (fun r => r.action == a) =
      (cs.map row_of_change).filter (fun r => r.action == a)) ∧
    ((generate_table sortDemo).rows.map Row.action =
      ["Action".toList, "Add".toList, "Add".toList, "Modify".toList,
        "Remove".toList] ∧
      (generate_table sortDemo).rows.map Row.resource_type =
        ["Resource Type".toList, "TypeA1".toList, "TypeA2".toList,
          "TypeM".toList, "TypeR".toList]) := by
  have htotal : ∀ r1 r2 : Row, pyStrLe r1.action r2.action = true ∨
      pyStrLe r2.action r1.action = true :=
    fun r1 r2 => pyStrLe_total r1.action r2.action
  have htrans : ∀ r1 r2 r3 : Row, pyStrLe r1.action r2.action = true →
      pyStrLe r2.action r3.action = true → pyStrLe r1.action r3.action = true :=
    fun r1 r2 r3 => pyStrLe_trans r1.action r2.action r3.action
  refine ⟨rfl, ?_, ?_, by decide, by decide⟩
  · exact pairwise_pySortBy _ htotal htrans _
  · intro a
    refine filter_pySortBy _ _ htotal htrans ?_ _
    intro r1 r2 h1 h2
    have e1 : r1.action = a := by simpa using h1
    have e2 : r2.action = a := by simpa using h2
    rw [e1, e2]
    exact pyStrLe_refl a

/-- A change record whose first detail requires recreation `"Always"`
(the spec's end-to-end scenario, §8). -/
def changeAlways : Change :=
  ⟨⟨"Remove".toList, "AWS::IAM::Role".toList, "Role1".toList,
    [⟨⟨some "Policy".toList, "Always".toList⟩, "DirectModification".toList⟩]⟩⟩

/-- A change record with an empty `Details` list. -/
def changeNoDetails : Change :=
  ⟨⟨"Add".toList, "AWS::S3::Bucket".toList, longId51, []⟩⟩

/-- A two-change fixture for the recreation-flag witness. -/
def demoChanges : List Change := [changeNoDetails, changeAlways]

/-- C3: the `recreate` flag of `generate_table` (which drives the recreation
warning in the summary line) is true iff some change's recreation
requirement — read from the first detail, defaulting to `"No"` when there
are no details — is `"Always"` or `"Conditionally"`; every such change's
row appears in the table with its recreation cell wrapped in warning
glyphs; and a change with an empty details list defaults to recreation
requirement `"No"` with empty change target and change reason. -/
theorem generate_table_recreation_flag (cs : List Change) (c : Change) :
    ((generate_table cs).recreate = true ↔
      ∃ c' ∈ cs, requires_recreate_value c' = "Always".toList ∨
        requires_recreate_value c' = "Conditionally".toList) ∧
    (c ∈ cs →
      (requires_recreate_value c = "Always".toList ∨
        requires_recreate_value c = "Conditionally".toList) →
      row_of_change c ∈ (generate_table cs).rows ∧
        (row_of_change c).requires_recreation =
          siren :: requires_recreate_value c ++ [siren]) ∧
    (c.ResourceChange.Details = [] →
      requires_recreate_value c = "No".toList ∧
      (row_of_change c).change_target = [] ∧
      (row_of_change c).change_reason = [] ∧
      (row_of_change c).requires_recreation = "No".toList) := by
  refine ⟨?_, ?_, ?_⟩
  · show (cs.any change_requires_recreate = true ↔ _)
    rw [List.any_eq_true]
    constructor
    · rintro ⟨c', hc', hflag⟩
      refine ⟨c', hc', ?_⟩
      simpa [change_requires_recreate] using hflag
    · rintro ⟨c', hc', hval⟩
      refine ⟨c', hc', ?_⟩
      rcases hval with h | h <;>
        simp [change_requires_recreate, h]
  · intro hc hval
    have hflag : change_requires_recreate c = true := by
      rcases hval with h | h <;> simp [change_requires_recreate, h]
    constructor
    · show row_of_change c ∈ header_row :: _
      refine List.mem_cons_of_mem _ ?_
      rw [mem_pySortBy]
      exact List.mem_map.mpr ⟨c, hc, rfl⟩
    · simp [row_of_change, hflag]
  · intro hdet
    have hno : requires_recreate_value c = "No".toList := by
      simp [requires_recreate_value, hdet]
    have hflag : change_requires_recreate c = false := by
      simp [change_requires_recreate, hno]
    refine ⟨hno, ?_, ?_, ?_⟩
    · simp [row_of_change, hdet]
    · simp [row_of_change, hdet]
    · simp [row_of_change, hflag, hno]

/-- Witness for `generate_table_recreation_flag` on the concrete two-change
fixture: the `"Always"` change flips the flag, its marked row is in the
table, and the detail-less change defaults to `"No"` target/reason. -/
theorem generate_table_recreation_flag_witness :
    (generate_table demoChanges).recreate = true ∧
    row_of_change changeAlways ∈ (generate_table demoChanges).rows ∧
    (row_of_change changeAlways).requires_recreation =
      siren :: "Always".toList ++ [siren] ∧
    requires_recreate_value changeNoDetails = "No".toList ∧
    (row_of_change changeNoDetails).change_target = [] :=
  ⟨(generate_table_recreation_flag demoChanges changeAlways).1.mpr
      ⟨changeAlways, by decide, Or.inl (by decide)⟩,
    ((generate_table_recreation_flag demoChanges changeAlways).2.1 (by decide)
      (Or.inl (by decide))).1,
    ((generate_table_recreation_flag demoChanges changeAlways).2.1 (by decide)
      (Or.inl (by decide))).2,
    ((generate_table_recreation_flag demoChanges changeNoDetails).2.2 rfl).1,
    ((generate_table_recreation_flag demoChanges changeNoDetails).2.2 rfl).2.1⟩

/-- The fields of a `cx_api.CloudFormationStackArtifact` that `add_stacks`
reads: the stack name, the lookup role's arn template, and the environment's
account and region. -/
structure StackArtifact where
  stack_name : PyStr
  lookup_role_arn : PyStr
  account : PyStr
  region : PyStr
deriving DecidableEq

/-- The `StackInfo` named tuple: name, resolved role arn, region.  Equality
is componentwise, exactly Python's tuple equality used by the `set` of
selected stacks. -/
structure StackInfo where
  name : PyStr
  role_arn : PyStr
  region : PyStr
deriving DecidableEq

/-- Fuel-driven core of Python's `str.replace(old, new)` for a non-empty
pattern: scan left to right, replace each non-overlapping occurrence of
`old` by `new`, and continue after the replaced occurrence.  Each step
consumes at least one character of the scanned string, so `s.length` fuel
is always enough. -/
def pyReplaceFuel (old new : PyStr) : Nat → PyStr → PyStr
  | 0, s => s
  | _ + 1, [] => []
  | fuel + 1, c :: rest =>
    if !old.isEmpty && old.isPrefixOf (c :: rest) then
      new ++ pyReplaceFuel old new fuel ((c :: rest).drop old.length)
    else
      c :: pyReplaceFuel old new fuel rest

/-- Python's `s.replace(old, new)` for a non-empty `old` (the program only
replaces the fixed non-empty placeholder strings). -/
def pyReplace (s old new : PyStr) : PyStr :=
  pyReplaceFuel old new s.length s

/-- The `"$\x7bAWS::Partition\x7d"` placeholder. -/
def partitionPlaceholder : PyStr := "$\x7bAWS::Partition\x7d".toList

/-- The `"$\x7bAWS::AccountId\x7d"` placeholder. -/
def accountIdPlaceholder : PyStr := "$\x7bAWS::AccountId\x7d".toList

/-- The `"$\x7bAWS::Region\x7d"` placeholder. -/
def regionPlaceholder : PyStr := "$\x7bAWS::Region\x7d".toList

/-- Resolution of the lookup role arn performed inside `add_stacks` (lines
78-80): substitute the partition placeholder with `"aws"`, then the
account-id placeholder with the environment's account, then the region
placeholder with the environment's region, each by `str.replace`. -/
def resolve_role_arn (s : StackArtifact) : PyStr :=
  pyReplace
    (pyReplace
      (pyReplace s.lookup_role_arn partitionPlaceholder "aws".toList)
      accountIdPlaceholder s.account)
    regionPlaceholder s.region

/-- The `StackInfo` built for one artifact by the `add_stacks`
comprehension (lines 75-85). -/
def stack_info_of (s : StackArtifact) : StackInfo :=
  { name := s.stack_name, role_arn := resolve_role_arn s, region := s.region }

/-- The `_should_be_included` predicate of `add_stacks` (lines 70-71): the
stack's name starts with the selector, or the selector is `"*"`. -/
def should_be_included (stack_selector : PyStr) (s : StackArtifact) : Bool :=
  stack_selector.isPrefixOf s.stack_name || stack_selector == "*".toList

/-- Embeds `CdkChangesetReporter.reset_stack_selection` (lines 63-64):
`self.stacks = set()`. -/
def reset_stack_selection : Finset StackInfo := ∅

/-- Embeds `CdkChangesetReporter.add_stacks` (lines 66-89).  The cloud
assembly's `stacks_recursively` is the `assembly` list; `self.stacks` is the
`stacks` Finset (a Python `set` of named tuples).  Returns the updated set
(`self.stacks.update(result)`) and whether the no-stacks warning was logged
(`if not result`). -/
def add_stacks (assembly : List StackArtifact) (stack_selector : PyStr)
    (selfStacks : Finset StackInfo) : Finset StackInfo × Bool :=
  let result := (assembly.filter (should_be_included stack_selector)).map stack_info_of
  (selfStacks ∪ result.toFinset, result.isEmpty)

/-- C5: membership in the selection set after `add_stacks`: the selector
`"*"` matches every stack in the assembly regardless of name, any other
selector matches exactly the stacks whose name starts with it
(case-sensitive list prefix), previously selected stacks stay; and the
warning is logged iff the selector matched nothing (matching nothing is not
an error — `add_stacks` is total and still returns the updated set). -/
theorem add_stacks_selector_semantics (assembly : List StackArtifact)
    (sel : PyStr) (prev : Finset StackInfo) (info : StackInfo) :
    (info ∈ (add_stacks assembly sel prev).1 ↔
      info ∈ prev ∨ ∃ a ∈ assembly,
        (sel = "*".toList ∨ sel <+: a.stack_name) ∧ info = stack_info_of a) ∧
    ((add_stacks assembly sel prev).2 = true ↔
      ∀ a ∈ assembly, ¬ (sel = "*".toList ∨ sel <+: a.stack_name)) := by
  have hinc : ∀ a : StackArtifact, should_be_included sel a = true ↔
      (sel = "*".toList ∨ sel <+: a.stack_name) := by
    intro a
    rw [should_be_included, Bool.or_eq_true_iff]
    constructor
    · rintro (h | h)
      · exact Or.inr (List.isPrefixOf_iff_prefix.mp h)
      · exact Or.inl (by simpa using h)
    · rintro (h | h)
      · exact Or.inr (by simpa using h)
      · exact Or.inl (List.isPrefixOf_iff_prefix.mpr h)
  constructor
  · rw [add_stacks]
    simp only [Finset.mem_union, List.mem_toFinset, List.mem_map,
      List.mem_filter]
    constructor
    · rintro (h | ⟨a, ⟨ha, hinca⟩, rfl⟩)
      · exact Or.inl h
      · exact Or.inr ⟨a, ha, (hinc a).mp hinca, rfl⟩
    · rintro (h | ⟨a, ha, hsel, rfl⟩)
      · exact Or.inl h
      · exact Or.inr ⟨a, ⟨ha, (hinc a).mpr hsel⟩, rfl⟩
  · rw [add_stacks]
    simp only [List.isEmpty_iff, List.map_eq_nil_iff, List.filter_eq_nil_iff]
    constructor
    · intro h a ha hsel
      exact h a ha ((hinc a).mpr hsel)
    · intro h a ha hinca
      exact h a ha ((hinc a).mp hinca)

/-- C6: selection is idempotent (repeating the same selector changes
nothing), accumulative (two selectors yield the union of what each selects
from an empty selection, joined with the previous set, deduplicated by the
componentwise identity of `StackInfo`), and `reset_stack_selection` is the
empty set. -/
theorem add_stacks_idempotent_union_reset (assembly : List StackArtifact)
    (p q : PyStr) (s : Finset StackInfo) (i1 i2 : StackInfo) :
    (add_stacks assembly p (add_stacks assembly p s).1).1 =
      (add_stacks assembly p s).1 ∧
    (add_stacks assembly q (add_stacks assembly p s).1).1 =
      s ∪ (add_stacks assembly p ∅).1 ∪ (add_stacks assembly q ∅).1 ∧
    reset_stack_selection = (∅ : Finset StackInfo) ∧
    (i1 = i2 ↔ i1.name = i2.name ∧ i1.role_arn = i2.role_arn ∧
      i1.region = i2.region) := by
  refine ⟨?_, ?_, rfl, ?_⟩
  · simp only [add_stacks]
    rw [Finset.union_assoc, Finset.union_self]
  · simp only [add_stacks]
    rw [Finset.empty_union, Finset.empty_union]
  · constructor
    · rintro rfl; exact ⟨rfl, rfl, rfl⟩
    · rcases i1 with ⟨n1, r1, g1⟩
      rcases i2 with ⟨n2, r2, g2⟩
      rintro ⟨h1, h2, h3⟩
      simp_all

/-- The `'$'` character that starts every environment placeholder. -/
def dollar : Char := '$'

/-- Decidable side condition for placeholder resolution: every suffix of `s`
that begins with `'$'` has one of the patterns as a prefix, i.e. every
dollar sign in `s` starts a placeholder occurrence. -/
def dollarStartsPat (pats : List PyStr) (s : PyStr) : Bool :=
  s.tails.all fun t =>
    match t with
    | [] => true
    | c :: _ => if c = dollar then pats.any (fun p => p.isPrefixOf t) else true

/-- Propositional reading of `dollarStartsPat`. -/
theorem dollarStartsPat_iff (pats : List PyStr) (s : PyStr) :
    dollarStartsPat pats s = true ↔
      ∀ t : PyStr, t <:+ s → (∃ u, t = dollar :: u) → ∃ p ∈ pats, p <+: t := by
  rw [dollarStartsPat, List.all_eq_true]
  constructor
  · intro h t ht hd
    obtain ⟨u, rfl⟩ := hd
    have := h _ ((List.mem_tails _ _).mpr ht)
    simp only [if_pos rfl] at this
    obtain ⟨p, hp, hpre⟩ := List.any_eq_true.mp this
    exact ⟨p, hp, List.isPrefixOf_iff_prefix.mp hpre⟩
  · intro h t ht
    cases t with
    | nil => trivial
    | cons c u =>
      by_cases hc : c = dollar
      · subst hc
        simp only [if_pos rfl]
        obtain ⟨p, hp, hpre⟩ := h _ ((List.mem_tails _ _).mp ht) ⟨u, rfl⟩
        exact List.any_eq_true.mpr ⟨p, hp, List.isPrefixOf_iff_prefix.mpr hpre⟩
      · simp [hc]

/-- A suffix of an append is a suffix of the right part, or the right part
extended by a non-empty suffix of the left part. -/
theorem suffix_append_cases {α : Type} (t a b : List α) (h : t <:+ a ++ b) :
    t <:+ b ∨ ∃ a' : List α, a' <:+ a ∧ a' ≠ [] ∧ t = a' ++ b := by
  induction a with
  | nil => exact Or.inl (by simpa using h)
  | cons x a2 ih =>
    rcases List.suffix_cons_iff.mp h with rfl | h'
    · exact Or.inr ⟨x :: a2, List.suffix_refl _, List.cons_ne_nil x a2, rfl⟩
    · rcases ih h' with hb | ⟨a', ha', hne, rfl⟩
      · exact Or.inl hb
      · exact Or.inr ⟨a', ha'.trans (List.suffix_cons x a2), hne, rfl⟩

/-- If `old` does not match at any of the first `k` positions of `t`, the
left-to-right replacement leaves the first `k` characters of `t` as a
prefix of the output. -/
theorem take_isPrefix_pyReplaceFuel (old new : PyStr) :
    ∀ (fuel : Nat) (t : PyStr) (k : Nat), k ≤ t.length →
      (∀ j, j < k → ¬ old.isPrefixOf (t.drop j) = true) →
      t.take k <+: pyReplaceFuel old new fuel t := by
  intro fuel
  induction fuel with
  | zero => intro t k _ _; exact List.take_prefix k t
  | succ fuel ih =>
    intro t k hk hnm
    cases t with
    | nil =>
      have : k = 0 := by simpa using hk
      subst this
      exact List.nil_prefix
    | cons c rest =>
      by_cases hcond : (!old.isEmpty && old.isPrefixOf (c :: rest)) = true
      · rw [pyReplaceFuel, if_pos hcond]
        cases k with
        | zero => exact List.nil_prefix
        | succ k' =>
          exfalso
          refine hnm 0 (Nat.succ_pos k') ?_
          rw [List.drop_zero]
          exact (Bool.and_eq_true_iff.mp hcond).2
      · rw [pyReplaceFuel, if_neg hcond]
        cases k with
        | zero => exact List.nil_prefix
        | succ k' =>
          have hk' : k' ≤ rest.length := by simpa using hk
          have hnm' : ∀ j, j < k' → ¬ old.isPrefixOf (rest.drop j) = true := by
            intro j hj
            have := hnm (j + 1) (by omega)
            simpa using this
          obtain ⟨r, hr⟩ := ih rest k' hk' hnm'
          exact ⟨r, by simp [List.take_succ_cons, ← hr]⟩

/-- Key invariant of one replacement pass: if every dollar sign of `s`
starts an occurrence of `old` or of one of the patterns in `pats`, each of
which is a dollar sign followed by dollar-free text, and `new` is
dollar-free, then after replacing `old` by `new` every remaining dollar
sign starts an occurrence of one of the patterns in `pats`. -/
theorem pyReplaceFuel_dollar_invariant (old new : PyStr) (pats : List PyStr)
    (hold1 : old.head? = some dollar) (hold2 : dollar ∉ old.tail)
    (hpats : ∀ p ∈ pats, p.head? = some dollar ∧ dollar ∉ p.tail)
    (hnew : dollar ∉ new) :
    ∀ (fuel : Nat) (s : PyStr), s.length ≤ fuel →
      (∀ t : PyStr, t <:+ s → (∃ u, t = dollar :: u) → ∃ p ∈ old :: pats, p <+: t) →
      ∀ t : PyStr, t <:+ pyReplaceFuel old new fuel s →
        (∃ u, t = dollar :: u) → ∃ p ∈ pats, p <+: t := by
  obtain ⟨u0, rfl⟩ : ∃ u0, old = dollar :: u0 := by
    cases old with
    | nil => simp at hold1
    | cons o os =>
      have ho : o = dollar := by simpa using hold1
      exact ⟨os, by rw [ho]⟩
  intro fuel
  induction fuel with
  | zero =>
    intro s hs _ t ht hd
    have hs0 : s = [] := by
      cases s with
      | nil => rfl
      | cons a b => simp at hs
    subst hs0
    obtain ⟨u, rfl⟩ := hd
    rw [show pyReplaceFuel (dollar :: u0) new 0 [] = [] from rfl] at ht
    simp at ht
  | succ fuel ih =>
    intro s hs hstart t ht hd
    cases s with
    | nil =>
      obtain ⟨u, rfl⟩ := hd
      rw [show pyReplaceFuel (dollar :: u0) new (fuel + 1) [] = [] from rfl] at ht
      simp at ht
    | cons c rest =>
      by_cases hpre : (dollar :: u0).isPrefixOf (c :: rest) = true
      · have hcond : (!(dollar :: u0).isEmpty &&
            (dollar :: u0).isPrefixOf (c :: rest)) = true := by
          simp [hpre]
        rw [show pyReplaceFuel (dollar :: u0) new (fuel + 1) (c :: rest) =
            (if !(dollar :: u0).isEmpty && (dollar :: u0).isPrefixOf (c :: rest) then
              new ++ pyReplaceFuel (dollar :: u0) new fuel
                ((c :: rest).drop (dollar :: u0).length)
            else c :: pyReplaceFuel (dollar :: u0) new fuel rest) from rfl,
          if_pos hcond] at ht
        rcases suffix_append_cases t new _ ht with htR | ⟨a', ha', hne, rfl⟩
        · refine ih ((c :: rest).drop (dollar :: u0).length) ?_ ?_ t htR hd
          · rw [List.length_drop]
            simp only [List.length_cons] at hs ⊢
            omega
          · intro t' ht' hd'
            exact hstart t' (ht'.trans (List.drop_suffix _ _)) hd'
        · exfalso
          obtain ⟨u, hu⟩ := hd
          cases a' with
          | nil => exact hne rfl
          | cons x xs =>
            simp only [List.cons_append] at hu
            have hx : x = dollar := by injection hu with h1 _
            apply hnew
            rw [← hx]
            exact List.Sublist.mem (List.mem_cons_self x xs) ha'.sublist
      · have hcond : ¬ ((!(dollar :: u0).isEmpty &&
            (dollar :: u0).isPrefixOf (c :: rest)) = true) := by
          simp [hpre]
        rw [show pyReplaceFuel (dollar :: u0) new (fuel + 1) (c :: rest) =
            (if !(dollar :: u0).isEmpty && (dollar :: u0).isPrefixOf (c :: rest) then
              new ++ pyReplaceFuel (dollar :: u0) new fuel
                ((c :: rest).drop (dollar :: u0).length)
            else c :: pyReplaceFuel (dollar :: u0) new fuel rest) from rfl,
          if_neg hcond] at ht
        rcases List.suffix_cons_iff.mp ht with heq | htR
        · obtain ⟨u, hu⟩ := hd
          rw [heq] at hu
          have hc : c = dollar := by injection hu with h1 _
          obtain ⟨p, hp, hppre⟩ :=
            hstart (c :: rest) (List.suffix_refl _) ⟨rest, by rw [hc]⟩
          rcases List.mem_cons.mp hp with rfl | hp'
          · exact absurd (List.isPrefixOf_iff_prefix.mpr hppre) hpre
          · obtain ⟨hphead, hptail⟩ := hpats p hp'
            obtain ⟨up, rfl⟩ : ∃ up, p = dollar :: up := by
              cases p with
              | nil => simp at hphead
              | cons q qs =>
                have hq : q = dollar := by simpa using hphead
                exact ⟨qs, by rw [hq]⟩
            have hup : dollar ∉ up := by simpa using hptail
            obtain ⟨r, hr⟩ := hppre
            simp only [List.cons_append] at hr
            have hrest : up ++ r = rest := by injection hr with _ h2
            have hnm : ∀ j, j < up.length →
                ¬ (dollar :: u0).isPrefixOf (rest.drop j) = true := by
              intro j hj hmatch
              obtain ⟨w, hw⟩ := List.isPrefixOf_iff_prefix.mp hmatch
              have hdrop : rest.drop j = up.drop j ++ r := by
                rw [← hrest, List.drop_append_of_le_length (le_of_lt hj)]
              have hlen : 0 < (up.drop j).length := by
                rw [List.length_drop]; omega
              cases hud : up.drop j with
              | nil => rw [hud] at hlen; simp at hlen
              | cons y ys =>
                have hy_mem : y ∈ up := by
                  have hy : y ∈ up.drop j := by
                    rw [hud]; exact List.mem_cons_self y ys
                  exact List.Sublist.mem hy (List.drop_suffix j up).sublist
                have hy_dollar : y = dollar := by
                  rw [hdrop, hud] at hw
                  simp only [List.cons_append] at hw
                  injection hw with h1 _
                  exact h1.symm
                exact hup (hy_dollar ▸ hy_mem)
            have hk : up.length ≤ rest.length := by
              rw [← hrest, List.length_append]; omega
            have htake := take_isPrefix_pyReplaceFuel (dollar :: u0) new fuel
              rest up.length hk hnm
            have hupeq : rest.take up.length = up := by
              rw [← hrest, List.take_left]
            rw [hupeq] at htake
            obtain ⟨w, hw⟩ := htake
            refine ⟨dollar :: up, hp', w, ?_⟩
            rw [heq, hc]
            simp only [List.cons_append, ← hw]
        · refine ih rest ?_ ?_ t htR hd
          · simp only [List.length_cons] at hs; omega
          · intro t' ht' hd'
            exact hstart t' (ht'.trans (List.suffix_cons c rest)) hd'

/-- The invariant specialised to `pyReplace` (fuel = length). -/
theorem pyReplace_dollar_invariant (s old new : PyStr) (pats : List PyStr)
    (hold1 : old.head? = some dollar) (hold2 : dollar ∉ old.tail)
    (hpats : ∀ p ∈ pats, p.head? = some dollar ∧ dollar ∉ p.tail)
    (hnew : dollar ∉ new)
    (hstart : ∀ t, t <:+ s → (∃ u, t = dollar :: u) → ∃ p ∈ old :: pats, p <+: t) :
    ∀ t, t <:+ pyReplace s old new → (∃ u, t = dollar :: u) →
      ∃ p ∈ pats, p <+: t :=
  pyReplaceFuel_dollar_invariant old new pats hold1 hold2 hpats hnew
    s.length s (le_refl _) hstart

/-- A string none of whose suffixes may start with a dollar (the pattern
list is empty) contains no dollar at all. -/
theorem no_dollar_of_no_pats (s : PyStr)
    (h : ∀ t, t <:+ s → (∃ u, t = dollar :: u) →
      ∃ p ∈ ([] : List PyStr), p <+: t) :
    dollar ∉ s := by
  intro hmem
  obtain ⟨l1, l2, rfl⟩ := List.mem_iff_append.mp hmem
  obtain ⟨p, hp, _⟩ := h (dollar :: l2) ⟨l1, rfl⟩ ⟨l2, rfl⟩
  simp at hp

/-- Decidable substring containment: `pat` occurs contiguously in `s`. -/
def containsSub (pat s : PyStr) : Bool := s.tails.any fun t => pat.isPrefixOf t

/-- A pattern containing a dollar cannot occur in a dollar-free string. -/
theorem containsSub_eq_false (pat s : PyStr) (hd : dollar ∈ pat)
    (hs : dollar ∉ s) : containsSub pat s = false := by
  rw [Bool.eq_false_iff]
  intro htrue
  obtain ⟨t, ht, hp⟩ := List.any_eq_true.mp htrue
  have hsuf : t <:+ s := (List.mem_tails _ _).mp ht
  have hpre := List.isPrefixOf_iff_prefix.mp hp
  exact hs (List.Sublist.mem (List.Sublist.mem hd hpre.sublist) hsuf.sublist)

/-- C9 (amended): for every stack added by `add_stacks`, the stored role
arn is the lookup role arn with the partition, account-id and region
placeholders substituted in sequence; provided every dollar sign in the
role arn starts one of the three placeholders and the substituted account
and region values contain no dollar sign, none of the three placeholders
remains in the stored role arn. -/
theorem resolve_role_arn_no_placeholders (assembly : List StackArtifact)
    (sel : PyStr) (info : StackInfo)
    (h : ∀ a ∈ assembly,
      dollarStartsPat
          [partitionPlaceholder, accountIdPlaceholder, regionPlaceholder]
          a.lookup_role_arn = true ∧
        dollar ∉ a.account ∧ dollar ∉ a.region)
    (hi : info ∈ (add_stacks assembly sel ∅).1) :
    containsSub partitionPlaceholder info.role_arn = false ∧
    containsSub accountIdPlaceholder info.role_arn = false ∧
    containsSub regionPlaceholder info.role_arn = false := by
  rw [add_stacks] at hi
  simp only [Finset.empty_union, List.mem_toFinset, List.mem_map,
    List.mem_filter] at hi
  obtain ⟨a, ⟨ha, _⟩, rfl⟩ := hi
  obtain ⟨hsp, hacct, hreg⟩ := h a ha
  have inv0 := (dollarStartsPat_iff _ _).mp hsp
  have inv1 := pyReplace_dollar_invariant a.lookup_role_arn
    partitionPlaceholder "aws".toList
    [accountIdPlaceholder, regionPlaceholder]
    (by decide) (by decide) (by decide) (by decide) inv0
  have inv2 := pyReplace_dollar_invariant
    (pyReplace a.lookup_role_arn partitionPlaceholder "aws".toList)
    accountIdPlaceholder a.account [regionPlaceholder]
    (by decide) (by decide) (by decide) hacct inv1
  have inv3 := pyReplace_dollar_invariant
    (pyReplace (pyReplace a.lookup_role_arn partitionPlaceholder "aws".toList)
      accountIdPlaceholder a.account)
    regionPlaceholder a.region []
    (by decide) (by decide) (by simp) hreg inv2
  have hnd : dollar ∉
      pyReplace
        (pyReplace (pyReplace a.lookup_role_arn partitionPlaceholder "aws".toList)
          accountIdPlaceholder a.account)
        regionPlaceholder a.region :=
    no_dollar_of_no_pats _ inv3
  have harn : (stack_info_of a).role_arn =
      pyReplace
        (pyReplace (pyReplace a.lookup_role_arn partitionPlaceholder "aws".toList)
          accountIdPlaceholder a.account)
        regionPlaceholder a.region := rfl
  rw [harn]
  exact ⟨containsSub_eq_false _ _ (by decide) hnd,
    containsSub_eq_false _ _ (by decide) hnd,
    containsSub_eq_false _ _ (by decide) hnd⟩

/-- An artifact whose region value itself contains the partition
placeholder: sequential `str.replace` then reintroduces a placeholder. -/
def trickyArtifact : StackArtifact :=
  { stack_name := "s".toList
    lookup_role_arn := regionPlaceholder
    account := "123".toList
    region := partitionPlaceholder }

/-- C9 counterexample: for the concrete artifact whose role reference is
the region placeholder and whose region value is the partition
placeholder, the stack is added by `add_stacks` but its stored role arn is
exactly the partition placeholder — a placeholder does remain after
resolution, contradicting the claim as stated. -/
theorem resolve_role_arn_placeholder_remains :
    stack_info_of trickyArtifact ∈ (add_stacks [trickyArtifact] "s".toList ∅).1 ∧
    (stack_info_of trickyArtifact).role_arn = partitionPlaceholder ∧
    containsSub partitionPlaceholder (stack_info_of trickyArtifact).role_arn = true := by
  refine ⟨?_, by decide, by decide⟩
  rw [add_stacks]
  simp only [Finset.empty_union, List.mem_toFinset]
  decide

/-- A realistic artifact: a CDK-style lookup role arn containing all three
placeholders once each, a numeric account, and a normal region name. -/
def typicalArtifact : StackArtifact :=
  { stack_name := "demo".toList
    lookup_role_arn :=
      "arn:$\x7bAWS::Partition\x7d:iam::$\x7bAWS::AccountId\x7d:role/cdk-lookup-$\x7bAWS::Region\x7d".toList
    account := "123456789012".toList
    region := "eu-west-1".toList }

/-- Witness for `resolve_role_arn_no_placeholders` on the realistic
artifact. -/
theorem resolve_role_arn_no_placeholders_witness :
    (∀ a ∈ [typicalArtifact],
      dollarStartsPat
          [partitionPlaceholder, accountIdPlaceholder, regionPlaceholder]
          a.lookup_role_arn = true ∧
        dollar ∉ a.account ∧ dollar ∉ a.region) ∧
    stack_info_of typicalArtifact ∈
      (add_stacks [typicalArtifact] "*".toList ∅).1 ∧
    containsSub partitionPlaceholder (stack_info_of typicalArtifact).role_arn = false :=
  ⟨by decide,
    by
      rw [add_stacks]
      simp only [Finset.empty_union, List.mem_toFinset]
      decide,
    (resolve_role_arn_no_placeholders [typicalArtifact] "*".toList
      (stack_info_of typicalArtifact) (by decide)
      (by
        rw [add_stacks]
        simp only [Finset.empty_union, List.mem_toFinset]
        decide)).1⟩

/-- One entry of the `list_change_sets` response `Summaries`: the fields the
code reads. -/
structure ChangeSetSummary where
  ChangeSetName : PyStr
  ExecutionStatus : PyStr
deriving DecidableEq

/-- The CloudFormation service seen by `gather_changes`, one client per
stack (role + region): `list_change_sets` and `describe_change_set` (the
latter keyed by the chosen change-set name).  Credential creation in
`assumed_role_session` is lazy (`DeferredRefreshableCredentials`), so role
or region failures surface as errors of these calls.  Either call can raise
(`Except.error`). -/
structure CfnApi where
  list_change_sets : StackInfo → Except PyStr (List ChangeSetSummary)
  describe_change_set : StackInfo → PyStr → Except PyStr (List Change)

/-- Python dict assignment `changes[k] = v`: replace the value at an
existing key in place, else append the new key. -/
def dictInsert (m : List (PyStr × List Change)) (k : PyStr) (v : List Change) :
    List (PyStr × List Change) :=
  match m with
  | [] => [(k, v)]
  | (k', v') :: rest =>
    if k' == k then (k', v) :: rest else (k', v') :: dictInsert rest k v

/-- Python dict lookup `changes.get(k)`. -/
def lookupKey (k : PyStr) : List (PyStr × List Change) → Option (List Change)
  | [] => none
  | (k', v) :: rest => if k' == k then some v else lookupKey k rest

/-- The filter of the `available_change_sets` comprehension (lines
121-127): the summary's name equals the configured change-set name and its
execution status is `"AVAILABLE"`. -/
def matchesChangeSet (change_set_name : PyStr) (c : ChangeSetSummary) : Bool :=
  c.ChangeSetName == change_set_name && c.ExecutionStatus == "AVAILABLE".toList

/-- The per-stack loop of `gather_changes` (lines 116-132), iterating the
selected stacks in the `set`'s (arbitrary) iteration order: list the
change sets, filter, and if any match describe `available_change_sets[0]`
and store its `Changes` under the stack name.  There is no exception
handler: an error from either API call propagates immediately, abandoning
the loop. -/
def gather_loop (api : CfnApi) (change_set_name : PyStr) :
    List StackInfo → List (PyStr × List Change) →
      Except PyStr (List (PyStr × List Change))
  | [], changes => Except.ok changes
  | stack :: rest, changes =>
    match api.list_change_sets stack with
    | Except.error e => Except.error e
    | Except.ok summaries =>
      match summaries.filter (matchesChangeSet change_set_name) with
      | [] => gather_loop api change_set_name rest changes
      | first :: _ =>
        match api.describe_change_set stack first.ChangeSetName with
        | Except.error e => Except.error e
        | Except.ok descr =>
          gather_loop api change_set_name rest
            (dictInsert changes stack.name descr)

/-- Embeds `CdkChangesetReporter.gather_changes` (lines 109-135): run the
loop from an empty dict and return the mapping together with whether the
`"No changesets matching ..."` warning was logged (`if not changes`). -/
def gather_changes (api : CfnApi) (change_set_name : PyStr)
    (stackList : List StackInfo) :
    Except PyStr (List (PyStr × List Change) × Bool) :=
  match gather_loop api change_set_name stackList [] with
  | Except.error e => Except.error e
  | Except.ok changes => Except.ok (changes, changes.isEmpty)

/-- Fixture stack A. -/
def stackA : StackInfo :=
  { name := "A".toList, role_arn := "roleA".toList, region := "eu-west-1".toList }

/-- Fixture stack B. -/
def stackB : StackInfo :=
  { name := "B".toList, role_arn := "roleB".toList, region := "eu-west-2".toList }

/-- Fixture change returned for stack B. -/
def changeB : Change :=
  ⟨⟨"Add".toList, "AWS::S3::Bucket".toList, "Bucket".toList, []⟩⟩

/-- The configured change-set name used by the fixtures. -/
def demoChangeSetName : PyStr := "cdk-change-set-1".toList

/-- An API in which listing change sets fails for stack A (missing role,
unreachable region or API fault) and succeeds for every other stack with
one available matching change set. -/
def apiFailOnA : CfnApi :=
  { list_change_sets := fun s =>
      if s.name == "A".toList then Except.error "boom".toList
      else Except.ok [⟨demoChangeSetName, "AVAILABLE".toList⟩]
    describe_change_set := fun _ _ => Except.ok [changeB] }

/-- C2: `gather_changes` has no per-stack error isolation.  With an API
that fails for stack A only, the whole run raises (returns the error)
whichever side of A stack B is iterated on, and B's changes are lost —
although the very same API yields B's changes when B is processed alone.
The claim that the remaining stacks still complete and appear in the
returned mapping is false of the code. -/
theorem gather_changes_error_aborts :
    gather_changes apiFailOnA demoChangeSetName [stackA, stackB] =
      Except.error "boom".toList ∧
    gather_changes apiFailOnA demoChangeSetName [stackB, stackA] =
      Except.error "boom".toList ∧
    gather_changes apiFailOnA demoChangeSetName [stackB] =
      Except.ok ([("B".toList, [changeB])], false) := by
  refine ⟨rfl, rfl, rfl⟩

/-- Stack `s` has no pending change proposal matching the configured name
with execution status AVAILABLE (and listing itself succeeds). -/
def no_match (api : CfnApi) (change_set_name : PyStr) (s : StackInfo) : Prop :=
  ∃ summaries, api.list_change_sets s = Except.ok summaries ∧
    summaries.filter (matchesChangeSet change_set_name) = []

/-- Updating a different key leaves a lookup unchanged. -/
theorem lookupKey_dictInsert_ne (k k2 : PyStr) (v : List Change)
    (m : List (PyStr × List Change)) (h : k2 ≠ k) :
    lookupKey k (dictInsert m k2 v) = lookupKey k m := by
  have hbeq : (k2 == k) = false := beq_eq_false_iff_ne.mpr h
  induction m with
  | nil => simp [dictInsert, lookupKey, hbeq]
  | cons pair rest ih =>
    obtain ⟨k0, v0⟩ := pair
    by_cases h0 : (k0 == k2) = true
    · have hk0 : k0 = k2 := beq_iff_eq.mp h0
      subst hk0
      simp [dictInsert, lookupKey, hbeq]
    · have h0' : (k0 == k2) = false := Bool.eq_false_iff.mpr h0
      by_cases hk : (k0 == k) = true
      · simp [dictInsert, lookupKey, h0', hk]
      · have hk' : (k0 == k) = false := Bool.eq_false_iff.mpr hk
        simp [dictInsert, lookupKey, h0', hk', ih]

/-- If every stack in the remaining list whose name is `k` has no matching
change set, the loop never creates an entry at key `k`. -/
theorem gather_loop_no_key (api : CfnApi) (csname k : PyStr) :
    ∀ (stackList : List StackInfo) (acc : List (PyStr × List Change)),
      (∀ s ∈ stackList, s.name = k → no_match api csname s) →
      lookupKey k acc = none →
      ∀ m, gather_loop api csname stackList acc = Except.ok m →
        lookupKey k m = none := by
  intro stackList
  induction stackList with
  | nil =>
    intro acc _ hacc m hm
    have : acc = m := by
      simpa [gather_loop] using hm
    rw [← this]
    exact hacc
  | cons s rest ih =>
    intro acc hk hacc m hm
    cases hls : api.list_change_sets s with
    | error e =>
      simp only [gather_loop, hls] at hm
      injection hm
    | ok summaries =>
      cases hf : summaries.filter (matchesChangeSet csname) with
      | nil =>
        simp only [gather_loop, hls, hf] at hm
        exact ih acc (fun s' hs' => hk s' (List.mem_cons_of_mem s hs')) hacc m hm
      | cons first others =>
        cases hd : api.describe_change_set s first.ChangeSetName with
        | error e =>
          simp only [gather_loop, hls, hf, hd] at hm
          injection hm
        | ok descr =>
          simp only [gather_loop, hls, hf, hd] at hm
          have hne : s.name ≠ k := by
            intro heq
            obtain ⟨sum2, hs2, hfil⟩ := hk s (List.mem_cons_self s rest) heq
            rw [hls] at hs2
            injection hs2 with h2
            rw [← h2] at hfil
            rw [hfil] at hf
            cases hf
          refine ih (dictInsert acc s.name descr)
            (fun s' hs' => hk s' (List.mem_cons_of_mem s hs')) ?_ m hm
          rw [lookupKey_dictInsert_ne k s.name descr acc hne]
          exact hacc

/-- If no remaining stack has a matching change set, the loop returns the
accumulator unchanged. -/
theorem gather_loop_all_no_match (api : CfnApi) (csname : PyStr) :
    ∀ (stackList : List StackInfo) (acc : List (PyStr × List Change)),
      (∀ s ∈ stackList, no_match api csname s) →
      gather_loop api csname stackList acc = Except.ok acc := by
  intro stackList
  induction stackList with
  | nil => intro acc _; rfl
  | cons s rest ih =>
    intro acc hall
    obtain ⟨summaries, hls, hfil⟩ := hall s (List.mem_cons_self s rest)
    simp only [gather_loop, hls, hfil]
    exact ih acc (fun s' hs' => hall s' (List.mem_cons_of_mem s hs'))

/-- C8: a selected stack with no change proposal matching the configured
name with status AVAILABLE contributes no entry to the returned mapping
(provided no other selected stack shares its name), and when no selected
stack matches at all the run still returns — with an empty mapping and the
single warning flag set — rather than failing. -/
theorem gather_changes_skip_and_warn (api : CfnApi) (csname : PyStr)
    (stackList : List StackInfo) (k : PyStr)
    (hk : ∀ s ∈ stackList, s.name = k → no_match api csname s) :
    (∀ m w, gather_changes api csname stackList = Except.ok (m, w) →
      lookupKey k m = none) ∧
    ((∀ s ∈ stackList, no_match api csname s) →
      gather_changes api csname stackList = Except.ok ([], true)) := by
  constructor
  · intro m w hmw
    cases hloop : gather_loop api csname stackList [] with
    | error e =>
      simp only [gather_changes, hloop] at hmw
      injection hmw
    | ok changes =>
      simp only [gather_changes, hloop, Except.ok.injEq, Prod.mk.injEq] at hmw
      obtain ⟨hcm, _⟩ := hmw
      rw [← hcm]
      exact gather_loop_no_key api csname k stackList [] hk rfl changes hloop
  · intro hall
    simp only [gather_changes, gather_loop_all_no_match api csname stackList [] hall]
    rfl

/-- An API whose listing succeeds but yields no summary that both carries
the configured name and is AVAILABLE. -/
def apiNoMatch : CfnApi :=
  { list_change_sets := fun _ =>
      Except.ok [⟨"other-change-set".toList, "AVAILABLE".toList⟩,
        ⟨demoChangeSetName, "UNAVAILABLE".toList⟩]
    describe_change_set := fun _ _ => Except.ok [changeB] }

/-- Witness for `gather_changes_skip_and_warn`: one selected stack, no
matching proposal — the run returns the empty mapping with the warning
flag, and the stack's key is absent. -/
theorem gather_changes_skip_and_warn_witness :
    gather_changes apiNoMatch demoChangeSetName [stackA] =
      Except.ok ([], true) ∧
    lookupKey "A".toList [] = none := by
  have hone : ∀ s ∈ [stackA], no_match apiNoMatch demoChangeSetName s := by
    intro s hs
    have : s = stackA := List.mem_singleton.mp hs
    subst this
    exact ⟨_, rfl, rfl⟩
  have hk : ∀ s ∈ [stackA], s.name = "A".toList →
      no_match apiNoMatch demoChangeSetName s :=
    fun s hs _ => hone s hs
  have hrun :=
    (gather_changes_skip_and_warn apiNoMatch demoChangeSetName [stackA]
      "A".toList hk).2 hone
  exact ⟨hrun,
    (gather_changes_skip_and_warn apiNoMatch demoChangeSetName [stackA]
      "A".toList hk).1 [] true hrun⟩

/-- The head of a filtered list is the first element satisfying the
predicate. -/
theorem filter_head_eq_find {α : Type} (p : α → Bool) (l : List α) :
    (l.filter p).head? = l.find? p := by
  induction l with
  | nil => rfl
  | cons x xs ih =>
    by_cases h : p x = true
    · simp [List.filter_cons, List.find?_cons_of_pos, h]
    · simp [List.filter_cons, h, List.find?_cons_of_neg, ih]

/-- C10: when at least one (possibly several) pending proposal matches the
configured name with status AVAILABLE, `gather_changes` describes exactly
the first match in the order returned by the listing call
(`available_change_sets[0]`) and ignores the rest: the result maps the
stack name to that proposal's change list. -/
theorem gather_changes_first_available_match (api : CfnApi) (csname : PyStr)
    (s : StackInfo) (summaries : List ChangeSetSummary)
    (first : ChangeSetSummary) (d : List Change)
    (hl : api.list_change_sets s = Except.ok summaries)
    (hf : summaries.find? (matchesChangeSet csname) = some first)
    (hd : api.describe_change_set s first.ChangeSetName = Except.ok d) :
    gather_changes api csname [s] = Except.ok ([(s.name, d)], false) := by
  have hhead : (summaries.filter (matchesChangeSet csname)).head? = some first := by
    rw [filter_head_eq_find]
    exact hf
  cases hfil : summaries.filter (matchesChangeSet csname) with
  | nil => rw [hfil] at hhead; cases hhead
  | cons f others =>
    rw [hfil] at hhead
    have hfirst : f = first := by
      injection hhead
    subst hfirst
    simp only [gather_changes, gather_loop, hl, hfil, hd]
    rfl

/-- An API whose listing returns two AVAILABLE proposals with the
configured name (after one non-matching entry). -/
def apiTwoMatches : CfnApi :=
  { list_change_sets := fun _ =>
      Except.ok [⟨"other-change-set".toList, "AVAILABLE".toList⟩,
        ⟨demoChangeSetName, "AVAILABLE".toList⟩,
        ⟨demoChangeSetName, "AVAILABLE".toList⟩]
    describe_change_set := fun _ _ => Except.ok [changeB] }

/-- Witness for `gather_changes_first_available_match` with two matching
proposals: the run reports the stack once, from the first match. -/
theorem gather_changes_first_available_match_witness :
    gather_changes apiTwoMatches demoChangeSetName [stackA] =
      Except.ok ([("A".toList, [changeB])], false) :=
  gather_changes_first_available_match apiTwoMatches demoChangeSetName stackA
    [⟨"other-change-set".toList, "AVAILABLE".toList⟩,
      ⟨demoChangeSetName, "AVAILABLE".toList⟩,
      ⟨demoChangeSetName, "AVAILABLE".toList⟩]
    ⟨demoChangeSetName, "AVAILABLE".toList⟩ [changeB] rfl (by decide) rfl
